import Mathlib

set_option linter.unusedSectionVars false

/-!
Verification development for the CAMB theory wrapper
(`cobaya/theories/camb/camb.py`): a shallow embedding of its
parameter-keyed result cache, requirement accumulation, and quantity
accessors, together with theorems checking the natural-language
specification against the code.

The embedding abstracts the external CAMB library behind an `Outcome`
value (the solver either rejects the point as out of range, fails during
a collector computation, or succeeds producing per-collector results and
derived parameters), exactly mirroring how `camb.set` / `camb.compute`
branch on the library's exceptions.  Parameter points, collector keys,
result values and derived-parameter tables are abstract types with
decidable equality, since the cache logic only ever compares them for
equality.
-/

section CacheModel

variable {P K V D : Type} [DecidableEq P] [DecidableEq K]

/-- Outcome of one external-solver invocation at a parameter point:
`rangeError` models `CAMBParamRangeError` raised while setting parameters;
`computeError j f` models a `CAMBError` raised by the collector at position
`j` of the collector list (the first `j` collectors already produced their
results via `f`); `ok f d` models a successful computation in which every
collector key `k` yields result `f k`, with derived-parameter table `d`. -/
inductive Outcome (K V D : Type) where
  | rangeError : Outcome K V D
  | computeError (j : ℕ) (f : K → V) : Outcome K V D
  | ok (f : K → V) (d : D) : Outcome K V D

/-- The configuration fixed between `needs` rebuilds: the list of registered
collector keys (in registration order, as in the `self.collectors` dict), the
deterministic behaviour of the external solver on each parameter point, and
the `stop_at_error` flag. -/
structure Config (P K V D : Type) where
  collectors : List K
  solver : P → Outcome K V D
  stop_at_error : Bool

/-- One entry of `self._states`: the stored input-parameter mapping
(`"params"`, `none` when the slot has never been written), the per-collector
results written under the collector keys of the state dict, the stored
derived-parameter dict (`"derived"`), and the recency counter (`"last"`). -/
structure Slot (P K V D : Type) where
  params : Option P
  results : K → Option V
  derived : Option D
  last : Int

/-- A freshly initialized state entry, as built in `camb.initialize`. -/
def Slot.init : Slot P K V D := ⟨none, fun _ => none, none, 0⟩

/-- The cache: `self._n_states = 3` slots. -/
structure CamState (P K V D : Type) where
  s0 : Slot P K V D
  s1 : Slot P K V D
  s2 : Slot P K V D

/-- The state right after `camb.initialize`. -/
def initState : CamState P K V D := ⟨Slot.init, Slot.init, Slot.init⟩

/-- Slot lookup by index. -/
def CamState.get (st : CamState P K V D) : Fin 3 → Slot P K V D
  | 0 => st.s0
  | 1 => st.s1
  | 2 => st.s2

/-- Replace the slot at an index. -/
def CamState.setSlot (st : CamState P K V D) : Fin 3 → Slot P K V D → CamState P K V D
  | 0, s => { st with s0 := s }
  | 1, s => { st with s1 := s }
  | 2, s => { st with s2 := s }

/-- `max(lasts)` over the three recency counters. -/
def maxLasts (st : CamState P K V D) : Int :=
  if st.s0.last ≤ st.s1.last then
    (if st.s1.last ≤ st.s2.last then st.s2.last else st.s1.last)
  else
    (if st.s0.last ≤ st.s2.last then st.s2.last else st.s0.last)

/-- `lasts.index(min(lasts))`: the first (lowest) index attaining the minimal
recency counter — the slot `compute` overwrites on a miss. -/
def argminLast (st : CamState P K V D) : Fin 3 :=
  if st.s0.last ≤ st.s1.last ∧ st.s0.last ≤ st.s2.last then 0
  else if st.s1.last ≤ st.s2.last then 1
  else 2

/-- `next(i for i in range(self._n_states) if self._states[i]["params"] ==
params_values_dict)`: the first slot whose stored parameters equal the
query, if any. -/
def firstMatch (st : CamState P K V D) (pt : P) : Option (Fin 3) :=
  if st.s0.params = some pt then some 0
  else if st.s1.params = some pt then some 1
  else if st.s2.params = some pt then some 2
  else none

/-- The check `for product in self.collectors: next(k for k in
self._states[i_state] if k == product)`: the slot already holds a result
under every registered collector key. -/
def slotComplete (ks : List K) (s : Slot P K V D) : Bool :=
  ks.all fun k => (s.results k).isSome

/-- The cache lookup performed at the top of `compute`: with caching
disabled the lookup is skipped entirely (`raise StopIteration`); otherwise
the first slot matching the parameters hits only when it is complete for
every registered collector key (an incomplete first match falls through to
the miss branch — later slots are not tried). -/
def lookupHit (cfg : Config P K V D) (st : CamState P K V D) (pt : P) (cached : Bool) :
    Option (Fin 3) :=
  if cached then
    match firstMatch st pt with
    | some i => if slotComplete cfg.collectors (st.get i) then some i else none
    | none => none
  else none

/-- The LRU promotion at the end of `compute`: every slot's `last` is
decreased by the `max(lasts)` captured at entry, then the used slot's
`last` is set to `1`. -/
def touch (st : CamState P K V D) (m : Int) (i : Fin 3) : CamState P K V D :=
  let sh : Slot P K V D → Slot P K V D := fun s => { s with last := s.last - m }
  let st1 : CamState P K V D := ⟨sh st.s0, sh st.s1, sh st.s2⟩
  st1.setSlot i { st1.get i with last := 1 }

/-- The collector loop `self._states[i_state][product] = collector.method(...)`
run over the keys `ks` (a prefix of the registered collectors when the loop
is aborted by a `CAMBError`): each key in `ks` now maps to its computed
result, every other key keeps whatever the slot held before — the slot is
never cleared. -/
def writeResults (s : Slot P K V D) (ks : List K) (f : K → V) : Slot P K V D :=
  { s with results := fun k => if k ∈ ks then some (f k) else s.results k }

/-- Return status of one `compute` call: `zero`, `reused` and `fresh` are the
return values `0`, `1` and `2`; the `raised` statuses model the exceptions
propagated under `stop_at_error` (the state mutations made before the raise
persist on the object, so the post-state is still recorded). -/
inductive CStatus where
  | zero : CStatus
  | reused : CStatus
  | fresh : CStatus
  | raisedRange : CStatus
  | raisedCompute : CStatus
deriving DecidableEq

/-- The integer actually returned by `compute`, `none` when an exception
propagates instead of a return. -/
def CStatus.retCode : CStatus → Option ℕ
  | .zero => some 0
  | .reused => some 1
  | .fresh => some 2
  | .raisedRange => none
  | .raisedCompute => none

/-- Result of one `compute` call: post-state, status, the derived-parameter
dict handed back through the `_derived` argument (when requested), and
whether the external solver was invoked (miss branch reached). -/
structure CResult (P K V D : Type) where
  state : CamState P K V D
  status : CStatus
  derivedOut : Option D
  invoked : Bool

/-- Shallow embedding of `camb.compute`.  On a hit the stored derived dict is
returned and the slot promoted.  On a miss the first-minimal-recency slot is
selected and `camb.set` immediately stores the new input parameters in it;
a range error then returns `0` (lenient) or raises (strict) with nothing
else written; a collector error first writes the results of the collectors
that succeeded; a successful computation writes every collector result,
stores the derived dict (only when requested, mirroring `if _derived == {}`),
and promotes the slot. -/
def compute (cfg : Config P K V D) (st : CamState P K V D) (pt : P)
    (cached : Bool) (wantDerived : Bool) : CResult P K V D :=
  let m := maxLasts st
  match lookupHit cfg st pt cached with
  | some i =>
      ⟨touch st m i, .reused, if wantDerived then (st.get i).derived else none, false⟩
  | none =>
      let i := argminLast st
      let st1 := st.setSlot i { st.get i with params := some pt }
      match cfg.solver pt with
      | .rangeError =>
          if cfg.stop_at_error then ⟨st1, .raisedRange, none, true⟩
          else ⟨st1, .zero, none, true⟩
      | .computeError j f =>
          let st2 := st1.setSlot i (writeResults (st1.get i) (cfg.collectors.take j) f)
          if cfg.stop_at_error then ⟨st2, .raisedCompute, none, true⟩
          else ⟨st2, .zero, none, true⟩
      | .ok f d =>
          let s2 := writeResults (st1.get i) cfg.collectors f
          let s3 := if wantDerived then { s2 with derived := some d } else s2
          let st3 := st1.setSlot i s3
          ⟨touch st3 m i, .fresh, if wantDerived then some d else none, true⟩

/-- One call description for a sequence of evaluations. -/
structure Call (P : Type) where
  pt : P
  cached : Bool
  wantDerived : Bool

/-- Run a sequence of `compute` calls, threading the cache state. -/
def runSeq (cfg : Config P K V D) : List (Call P) → CamState P K V D → CamState P K V D
  | [], st => st
  | c :: cs, st => runSeq cfg cs (compute cfg st c.pt c.cached c.wantDerived).state

end CacheModel

section CacheLemmas

variable {P K V D : Type} [DecidableEq P] [DecidableEq K]

@[simp]
theorem get_zero (x y z : Slot P K V D) : (CamState.mk x y z).get 0 = x := rfl

@[simp]
theorem get_one (x y z : Slot P K V D) : (CamState.mk x y z).get 1 = y := rfl

@[simp]
theorem get_two (x y z : Slot P K V D) : (CamState.mk x y z).get 2 = z := rfl

@[simp]
theorem setSlot_zero (x y z s : Slot P K V D) :
    (CamState.mk x y z).setSlot 0 s = ⟨s, y, z⟩ := rfl

@[simp]
theorem setSlot_one (x y z s : Slot P K V D) :
    (CamState.mk x y z).setSlot 1 s = ⟨x, s, z⟩ := rfl

@[simp]
theorem setSlot_two (x y z s : Slot P K V D) :
    (CamState.mk x y z).setSlot 2 s = ⟨x, y, s⟩ := rfl

theorem get_setSlot_same (st : CamState P K V D) (i : Fin 3) (s : Slot P K V D) :
    (st.setSlot i s).get i = s := by
  fin_cases i <;> rfl

theorem setSlot_setSlot (st : CamState P K V D) (i : Fin 3) (s t : Slot P K V D) :
    (st.setSlot i s).setSlot i t = st.setSlot i t := by
  fin_cases i <;> rfl

theorem get_setSlot (st : CamState P K V D) (i j : Fin 3) (s : Slot P K V D) :
    (st.setSlot j s).get i = if i = j then s else st.get i := by
  fin_cases i <;> fin_cases j <;> simp [CamState.get, CamState.setSlot]

/-- Membership form of `writeResults`. -/
theorem writeResults_apply (s : Slot P K V D) (ks : List K) (f : K → V) (k : K) :
    (writeResults s ks f).results k = if k ∈ ks then some (f k) else s.results k := rfl

/-- Unfolding `compute` on a cache hit. -/
theorem compute_hit (cfg : Config P K V D) (st : CamState P K V D) (pt : P)
    (cached w : Bool) (i : Fin 3) (hl : lookupHit cfg st pt cached = some i) :
    compute cfg st pt cached w =
      ⟨touch st (maxLasts st) i, .reused,
        if w then (st.get i).derived else none, false⟩ := by
  simp only [compute, hl]

/-- Unfolding `compute` on a miss whose parameter point the solver rejects
as out of range: only the `params` field of the acquired slot changes. -/
theorem compute_miss_range (cfg : Config P K V D) (st : CamState P K V D) (pt : P)
    (cached w : Bool) (hl : lookupHit cfg st pt cached = none)
    (hs : cfg.solver pt = .rangeError) :
    compute cfg st pt cached w =
      ⟨st.setSlot (argminLast st) { st.get (argminLast st) with params := some pt },
        if cfg.stop_at_error then .raisedRange else .zero, none, true⟩ := by
  simp only [compute, hl, hs]
  split <;> rfl

/-- A `compute` call whose cache lookup fails never reports a reused state. -/
theorem compute_not_reused (cfg : Config P K V D) (st : CamState P K V D) (pt : P)
    (cached w : Bool) (hl : lookupHit cfg st pt cached = none) :
    (compute cfg st pt cached w).status ≠ .reused := by
  simp only [compute, hl]
  cases hsv : cfg.solver pt <;> simp only []
  · split <;> simp
  · split <;> simp
  · simp

/-- Unfolding `compute` on a miss with a successful solver call, with the
derived dict requested. -/
theorem compute_miss_ok (cfg : Config P K V D) (st : CamState P K V D) (pt : P)
    (cached : Bool) (f : K → V) (d : D) (hl : lookupHit cfg st pt cached = none)
    (hs : cfg.solver pt = .ok f d) :
    compute cfg st pt cached true =
      ⟨touch (st.setSlot (argminLast st)
          ⟨some pt,
            fun k => if k ∈ cfg.collectors then some (f k) else (st.get (argminLast st)).results k,
            some d, (st.get (argminLast st)).last⟩) (maxLasts st) (argminLast st),
        .fresh, some d, true⟩ := by
  simp only [compute, hl, hs, get_setSlot_same, writeResults, if_true, setSlot_setSlot]

end CacheLemmas

section CacheTheorems

variable {P K V D : Type} [DecidableEq P] [DecidableEq K]

/-- C3. Cache correctness: with the three freshly initialized slots,
evaluating parameter set `a`, then a distinct set `b`, then `a` again (with
caching enabled and derived parameters requested) makes the third call a
cache hit: the solver is not invoked, the status is `reused` (return value
`1`), and the derived parameters stored by the first evaluation of `a` are
returned. -/
theorem cache_hit_A_B_A (cfg : Config P K V D) (a b : P)
    (fa : K → V) (da : D) (fb : K → V) (db : D)
    (hab : a ≠ b)
    (ha : cfg.solver a = .ok fa da) (hb : cfg.solver b = .ok fb db) :
    let r1 := compute cfg initState a true true
    let r2 := compute cfg r1.state b true true
    let r3 := compute cfg r2.state a true true
    r3.status = .reused ∧ r3.status.retCode = some 1 ∧
      r3.invoked = false ∧ r3.derivedOut = some da := by
  intro r1 r2 r3
  have hba : ¬ (b = a) := fun h => hab h.symm
  have hl1 : lookupHit cfg initState a true = none := by
    simp [lookupHit, firstMatch, initState, Slot.init]
  have e1 : r1.state =
      ⟨⟨some a, fun k => if k ∈ cfg.collectors then some (fa k) else none, some da, 1⟩,
        Slot.init, Slot.init⟩ := by
    simp only [r1, compute_miss_ok cfg initState a true fa da hl1 ha]
    simp [initState, Slot.init, argminLast, maxLasts, touch]
  have hl2 : lookupHit cfg r1.state b true = none := by
    rw [e1]
    simp [lookupHit, firstMatch, Slot.init, Option.some_inj, hab]
  have e2 : r2.state =
      ⟨⟨some a, fun k => if k ∈ cfg.collectors then some (fa k) else none, some da, 0⟩,
        ⟨some b, fun k => if k ∈ cfg.collectors then some (fb k) else none, some db, 1⟩,
        ⟨none, fun _ => none, none, -1⟩⟩ := by
    have := compute_miss_ok cfg r1.state b true fb db hl2 hb
    simp only [r2, this, e1]
    simp [Slot.init, argminLast, maxLasts, touch]
  have hl3 : lookupHit cfg r2.state a true = some 0 := by
    rw [e2]
    simp [lookupHit, firstMatch, slotComplete, List.all_eq_true]
  have e3 := compute_hit cfg r2.state a true true 0 hl3
  refine ⟨?_, ?_, ?_, ?_⟩ <;>
    simp only [r3, e3, e2, CStatus.retCode, get_zero, if_true]

/-- Witness for `cache_hit_A_B_A`: a concrete two-point run with one
collector key. -/
def cfgW : Config ℕ ℕ ℕ ℕ := ⟨[0], fun p => .ok (fun _ => p) p, false⟩

theorem cache_hit_A_B_A_witness :
    (1 : ℕ) ≠ 2 ∧
      (let r1 := compute cfgW initState 1 true true
       let r2 := compute cfgW r1.state 2 true true
       let r3 := compute cfgW r2.state 1 true true
       r3.status = .reused ∧ r3.status.retCode = some 1 ∧
         r3.invoked = false ∧ r3.derivedOut = some 1) :=
  ⟨by decide, cache_hit_A_B_A cfgW 1 2 (fun _ => 1) 1 (fun _ => 2) 2 (by decide) rfl rfl⟩

/-- C4. Eviction correctness: with the three slots, evaluating four pairwise
distinct parameter sets `a`, `b`, `c`, `d` in sequence evicts the
least-recently-touched slot — slot `0`, which stored `a` and has the strictly
lowest recency counter after the third call (the second call already
demonstrates that ties are broken by the lowest slot index) — the acquired
slot afterwards holds exactly the fresh results for `d` under every
registered collector key and nothing under any other key (the net effect of
clearing on acquisition), and a subsequent re-evaluation of `a` is a cache
miss that recomputes (status `2`, solver invoked). -/
theorem evict_least_recent (cfg : Config P K V D) (a b c d : P)
    (fa fb fc fd : K → V) (da db dc dd : D)
    (hab : a ≠ b) (hac : a ≠ c) (had : a ≠ d) (hbc : b ≠ c) (hbd : b ≠ d) (hcd : c ≠ d)
    (ha : cfg.solver a = .ok fa da) (hb : cfg.solver b = .ok fb db)
    (hc : cfg.solver c = .ok fc dc) (hd : cfg.solver d = .ok fd dd) :
    let r1 := compute cfg initState a true true
    let r2 := compute cfg r1.state b true true
    let r3 := compute cfg r2.state c true true
    let r4 := compute cfg r3.state d true true
    let r5 := compute cfg r4.state a true true
    (r1.state.s1.last = r1.state.s2.last ∧ argminLast r1.state = 1) ∧
      (r3.state.s0.params = some a ∧ r3.state.s0.last < r3.state.s1.last ∧
        r3.state.s0.last < r3.state.s2.last ∧ argminLast r3.state = 0) ∧
      (r4.state.s0.params = some d ∧
        (∀ k, r4.state.s0.results k =
          if k ∈ cfg.collectors then some (fd k) else none)) ∧
      (r5.status = .fresh ∧ r5.status.retCode = some 2 ∧ r5.invoked = true) := by
  intro r1 r2 r3 r4 r5
  have hl1 : lookupHit cfg initState a true = none := by
    simp [lookupHit, firstMatch, initState, Slot.init]
  have e1 : r1.state =
      ⟨⟨some a, fun k => if k ∈ cfg.collectors then some (fa k) else none, some da, 1⟩,
        Slot.init, Slot.init⟩ := by
    simp only [r1, compute_miss_ok cfg initState a true fa da hl1 ha]
    simp [initState, Slot.init, argminLast, maxLasts, touch]
  have hl2 : lookupHit cfg r1.state b true = none := by
    rw [e1]; simp [lookupHit, firstMatch, Slot.init, hab]
  have e2 : r2.state =
      ⟨⟨some a, fun k => if k ∈ cfg.collectors then some (fa k) else none, some da, 0⟩,
        ⟨some b, fun k => if k ∈ cfg.collectors then some (fb k) else none, some db, 1⟩,
        ⟨none, fun _ => none, none, -1⟩⟩ := by
    have := compute_miss_ok cfg r1.state b true fb db hl2 hb
    simp only [r2, this, e1]
    simp [Slot.init, argminLast, maxLasts, touch]
  have hl3 : lookupHit cfg r2.state c true = none := by
    rw [e2]; simp [lookupHit, firstMatch, hac, hbc]
  have e3 : r3.state =
      ⟨⟨some a, fun k => if k ∈ cfg.collectors then some (fa k) else none, some da, -1⟩,
        ⟨some b, fun k => if k ∈ cfg.collectors then some (fb k) else none, some db, 0⟩,
        ⟨some c, fun k => if k ∈ cfg.collectors then some (fc k) else none, some dc, 1⟩⟩ := by
    have := compute_miss_ok cfg r2.state c true fc dc hl3 hc
    simp only [r3, this, e2]
    simp [argminLast, maxLasts, touch]
  have hl4 : lookupHit cfg r3.state d true = none := by
    rw [e3]; simp [lookupHit, firstMatch, had, hbd, hcd]
  have e4 : r4.state =
      ⟨⟨some d,
          fun k => if k ∈ cfg.collectors then some (fd k)
            else (fun k => if k ∈ cfg.collectors then some (fa k) else none) k,
          some dd, 1⟩,
        ⟨some b, fun k => if k ∈ cfg.collectors then some (fb k) else none, some db, -1⟩,
        ⟨some c, fun k => if k ∈ cfg.collectors then some (fc k) else none, some dc, 0⟩⟩ := by
    have := compute_miss_ok cfg r3.state d true fd dd hl4 hd
    simp only [r4, this, e3]
    simp [argminLast, maxLasts, touch]
  have hl5 : lookupHit cfg r4.state a true = none := by
    rw [e4]
    have hda : ¬ (d = a) := fun h => had h.symm
    have hba : ¬ (b = a) := fun h => hab h.symm
    have hca : ¬ (c = a) := fun h => hac h.symm
    simp [lookupHit, firstMatch, hda, hba, hca]
  refine ⟨⟨?_, ?_⟩, ⟨?_, ?_, ?_, ?_⟩, ⟨?_, ?_⟩, ?_, ?_, ?_⟩
  · rw [e1]
  · rw [e1]; simp [argminLast, Slot.init]
  · rw [e3]
  · rw [e3]; norm_num
  · rw [e3]; norm_num
  · rw [e3]; simp [argminLast]
  · rw [e4]
  · intro k
    rw [e4]
    by_cases hk : k ∈ cfg.collectors <;> simp [hk]
  · rw [show r5 = compute cfg r4.state a true true from rfl,
      compute_miss_ok cfg r4.state a true fa da hl5 ha]
  · rw [show r5 = compute cfg r4.state a true true from rfl,
      compute_miss_ok cfg r4.state a true fa da hl5 ha]
    rfl
  · rw [show r5 = compute cfg r4.state a true true from rfl,
      compute_miss_ok cfg r4.state a true fa da hl5 ha]

/-- Witness for `evict_least_recent`: four concrete points, one collector. -/
theorem evict_least_recent_witness :
    ((1 : ℕ) ≠ 2 ∧ (1 : ℕ) ≠ 3 ∧ (1 : ℕ) ≠ 4 ∧ (2 : ℕ) ≠ 3 ∧ (2 : ℕ) ≠ 4 ∧ (3 : ℕ) ≠ 4) ∧
      (let r1 := compute cfgW initState 1 true true
       let r2 := compute cfgW r1.state 2 true true
       let r3 := compute cfgW r2.state 3 true true
       let r4 := compute cfgW r3.state 4 true true
       let r5 := compute cfgW r4.state 1 true true
       (r1.state.s1.last = r1.state.s2.last ∧ argminLast r1.state = 1) ∧
         (r3.state.s0.params = some 1 ∧ r3.state.s0.last < r3.state.s1.last ∧
           r3.state.s0.last < r3.state.s2.last ∧ argminLast r3.state = 0) ∧
         (r4.state.s0.params = some 4 ∧
           (∀ k, r4.state.s0.results k =
             if k ∈ cfgW.collectors then some ((fun _ => 4) k) else none)) ∧
         (r5.status = .fresh ∧ r5.status.retCode = some 2 ∧ r5.invoked = true)) :=
  ⟨by decide,
    evict_least_recent cfgW 1 2 3 4 (fun _ => 1) (fun _ => 2) (fun _ => 3) (fun _ => 4)
      1 2 3 4 (by decide) (by decide) (by decide) (by decide) (by decide) (by decide)
      rfl rfl rfl rfl⟩

/-- C6. New-requirement invalidation: after evaluating `a` under collector
list `ks`, re-evaluating `a` with a new collector key appended (the effect of
declaring a new requirement and rebuilding) is a cache miss that recomputes,
not a stale hit; and in general a `compute` call reports a reused state only
when the first slot matching the parameters already holds a result under
every currently registered collector key. -/
theorem new_requirement_is_miss (cfg : Config P K V D) (knew : K) (a : P)
    (fa : K → V) (da : D) (hk : knew ∉ cfg.collectors)
    (ha : cfg.solver a = .ok fa da) :
    (let cfg2 : Config P K V D := { cfg with collectors := cfg.collectors ++ [knew] }
     let r1 := compute cfg initState a true true
     let r2 := compute cfg2 r1.state a true true
     r2.status = .fresh ∧ r2.status.retCode = some 2 ∧ r2.invoked = true) ∧
      (∀ (cfg3 : Config P K V D) (st : CamState P K V D) (pt : P) (w : Bool),
        (compute cfg3 st pt true w).status = .reused →
          ∃ i, firstMatch st pt = some i ∧
            slotComplete cfg3.collectors (st.get i) = true) := by
  constructor
  · intro cfg2 r1 r2
    have hl1 : lookupHit cfg initState a true = none := by
      simp [lookupHit, firstMatch, initState, Slot.init]
    have e1 : r1.state =
        ⟨⟨some a, fun k => if k ∈ cfg.collectors then some (fa k) else none, some da, 1⟩,
          Slot.init, Slot.init⟩ := by
      simp only [r1, compute_miss_ok cfg initState a true fa da hl1 ha]
      simp [initState, Slot.init, argminLast, maxLasts, touch]
    have hl2 : lookupHit cfg2 r1.state a true = none := by
      rw [e1]
      simp only [lookupHit, firstMatch, if_pos rfl, if_true]
      simp [slotComplete, cfg2, List.all_eq_true, hk]
    have ha2 : cfg2.solver a = .ok fa da := ha
    rw [show r2 = compute cfg2 r1.state a true true from rfl,
      compute_miss_ok cfg2 r1.state a true fa da hl2 ha2]
    exact ⟨rfl, rfl, rfl⟩
  · intro cfg3 st pt w hstat
    cases hl : lookupHit cfg3 st pt true with
    | some i =>
        refine ⟨i, ?_, ?_⟩ <;>
          · revert hl
            simp only [lookupHit, if_true]
            cases hfm : firstMatch st pt with
            | some j =>
                by_cases hc : slotComplete cfg3.collectors (st.get j) = true <;>
                  simp [hc] <;> intro h <;> simp [← h, hc]
            | none => simp
    | none => exact absurd hstat (compute_not_reused cfg3 st pt true w hl)

/-- Witness for `new_requirement_is_miss`: concrete run where key `1` is
declared after the first evaluation. -/
theorem new_requirement_is_miss_witness :
    ((1 : ℕ) ∉ cfgW.collectors ∧
      (let cfg2 : Config ℕ ℕ ℕ ℕ := { cfgW with collectors := cfgW.collectors ++ [1] }
       let r1 := compute cfgW initState 7 true true
       let r2 := compute cfg2 r1.state 7 true true
       r2.status = .fresh ∧ r2.status.retCode = some 2 ∧ r2.invoked = true)) :=
  ⟨by decide, (new_requirement_is_miss cfgW 1 7 (fun _ => 7) 7 (by decide) rfl).1⟩

/-- C1 (amended). Lenient-mode zero result: when the lookup misses and the
solver rejects the point as out of range with `stop_at_error` off, `compute`
returns status `0` without raising and the only change to the cache is that
the acquired (first-minimal-recency) slot now stores the new input
parameters: every slot's results, derived dict and recency counter are
unchanged (in particular the acquired slot's stale results are not cleared,
so the slot is left holding the new parameters without a fresh result set). -/
theorem lenient_zero_result (cfg : Config P K V D) (st : CamState P K V D)
    (pt : P) (w : Bool) (hstop : cfg.stop_at_error = false)
    (hs : cfg.solver pt = .rangeError) (hl : lookupHit cfg st pt true = none) :
    let r := compute cfg st pt true w
    r.status = .zero ∧ r.status.retCode = some 0 ∧ r.derivedOut = none ∧
      r.state = st.setSlot (argminLast st)
        { st.get (argminLast st) with params := some pt } ∧
      (∀ i, (r.state.get i).results = (st.get i).results) ∧
      (∀ i, (r.state.get i).derived = (st.get i).derived) ∧
      (∀ i, (r.state.get i).last = (st.get i).last) ∧
      (r.state.get (argminLast st)).params = some pt ∧
      (∀ i, i ≠ argminLast st → (r.state.get i).params = (st.get i).params) := by
  intro r
  have e : r = ⟨st.setSlot (argminLast st)
      { st.get (argminLast st) with params := some pt }, .zero, none, true⟩ := by
    rw [show r = compute cfg st pt true w from rfl,
      compute_miss_range cfg st pt true w hl hs, hstop]
    rfl
  refine ⟨by rw [e], by rw [e]; rfl, by rw [e], by rw [e], ?_, ?_, ?_, ?_, ?_⟩ <;>
    simp only [e]
  · intro i; rw [get_setSlot]; split <;> simp_all
  · intro i; rw [get_setSlot]; split <;> simp_all
  · intro i; rw [get_setSlot]; split <;> simp_all
  · rw [get_setSlot_same]
  · intro i hi; rw [get_setSlot, if_neg hi]

/-- Configuration whose solver rejects every point, lenient mode, one
collector key. -/
def cfgZ : Config ℕ ℕ ℕ ℕ := ⟨[0], fun _ => .rangeError, false⟩

/-- Witness for `lenient_zero_result` at a concrete state and point. -/
theorem lenient_zero_result_witness :
    (cfgZ.stop_at_error = false ∧ cfgZ.solver 5 = .rangeError ∧
      lookupHit cfgZ initState 5 true = none) ∧
      (let r := compute cfgZ initState 5 true true
       r.status = .zero ∧ r.status.retCode = some 0 ∧
         (r.state.get (argminLast (initState : CamState ℕ ℕ ℕ ℕ))).params = some 5) := by
  refine ⟨⟨rfl, rfl, rfl⟩, ?_⟩
  have h := lenient_zero_result cfgZ initState 5 true rfl rfl rfl
  exact ⟨h.1, h.2.1, h.2.2.2.2.2.2.2.1⟩

/-- Counterexample to C1 as stated: after a lenient-mode out-of-range
evaluation at the fresh cache, slot `0` holds the new input parameters while
the registered collector key `0` has no result in it — a partially written
slot. -/
theorem lenient_zero_result_cex :
    let r := compute cfgZ initState 5 true true
    r.status.retCode = some 0 ∧ (0 : ℕ) ∈ cfgZ.collectors ∧
      r.state.s0.params = some 5 ∧ r.state.s0.results 0 = none := by
  exact ⟨rfl, by decide, rfl, rfl⟩

end CacheTheorems

section CacheInvariant

variable {P K V D : Type} [DecidableEq P] [DecidableEq K]

/-- C5's invariant: no two slots hold the same stored parameter mapping. -/
def noDupParams (st : CamState P K V D) : Prop :=
  (st.s0.params = none ∨ st.s0.params ≠ st.s1.params) ∧
  (st.s0.params = none ∨ st.s0.params ≠ st.s2.params) ∧
  (st.s1.params = none ∨ st.s1.params ≠ st.s2.params)

/-- Slot `i` has the minimal recency counter, and strictly below every slot
of lower index (i.e. it is exactly the slot `lasts.index(min(lasts))`
selects). -/
def lowMinAt (st : CamState P K V D) : Fin 3 → Prop
  | 0 => st.s0.last ≤ st.s1.last ∧ st.s0.last ≤ st.s2.last
  | 1 => st.s1.last < st.s0.last ∧ st.s1.last ≤ st.s2.last
  | 2 => st.s2.last < st.s0.last ∧ st.s2.last < st.s1.last

/-- Auxiliary invariant: any slot that stores parameters but lacks a result
for some registered collector key (a zero-result leftover) is exactly the
slot the next miss will acquire. -/
def lruAux (ks : List K) (st : CamState P K V D) : Prop :=
  (st.s0.params ≠ none → slotComplete ks st.s0 = false → lowMinAt st 0) ∧
  (st.s1.params ≠ none → slotComplete ks st.s1 = false → lowMinAt st 1) ∧
  (st.s2.params ≠ none → slotComplete ks st.s2 = false → lowMinAt st 2)

/-- The inductive invariant maintained by cached `compute` calls. -/
def CacheInv (ks : List K) (st : CamState P K V D) : Prop :=
  noDupParams st ∧ lruAux ks st

theorem fin3_cases (i : Fin 3) : i = 0 ∨ i = 1 ∨ i = 2 := by
  fin_cases i <;> simp

theorem le_maxLasts_0 (st : CamState P K V D) : st.s0.last ≤ maxLasts st := by
  unfold maxLasts; split_ifs <;> omega

theorem le_maxLasts_1 (st : CamState P K V D) : st.s1.last ≤ maxLasts st := by
  unfold maxLasts; split_ifs <;> omega

theorem le_maxLasts_2 (st : CamState P K V D) : st.s2.last ≤ maxLasts st := by
  unfold maxLasts; split_ifs <;> omega

theorem lowMinAt_argminLast (st : CamState P K V D) : lowMinAt st (argminLast st) := by
  unfold argminLast
  split_ifs with h1 h2 <;> simp only [lowMinAt] <;> omega

theorem argminLast_of_lowMinAt (st : CamState P K V D) (i : Fin 3)
    (h : lowMinAt st i) : argminLast st = i := by
  fin_cases i <;> simp only [lowMinAt] at h <;> unfold argminLast <;>
    split_ifs <;> first | rfl | (exfalso; omega)

theorem firstMatch_none_spec (st : CamState P K V D) (pt : P)
    (h : firstMatch st pt = none) :
    st.s0.params ≠ some pt ∧ st.s1.params ≠ some pt ∧ st.s2.params ≠ some pt := by
  unfold firstMatch at h
  split_ifs at h
  simp_all

theorem firstMatch_some_spec (st : CamState P K V D) (pt : P) (i : Fin 3)
    (h : firstMatch st pt = some i) : (st.get i).params = some pt := by
  unfold firstMatch at h
  split_ifs at h with h0 h1 h2 <;> injection h with hh <;> subst hh <;>
    simp_all [CamState.get]

theorem lookupHit_some_spec (cfg : Config P K V D) (st : CamState P K V D) (pt : P)
    (c : Bool) (i : Fin 3) (h : lookupHit cfg st pt c = some i) :
    firstMatch st pt = some i ∧ slotComplete cfg.collectors (st.get i) = true := by
  unfold lookupHit at h
  split_ifs at h with hb
  rcases hfm : firstMatch st pt with _ | j <;> simp only [hfm] at h
  · simp at h
  · split_ifs at h with hcomp
    injection h with hh
    subst hh
    exact ⟨rfl, hcomp⟩

theorem lookupHit_none_cases (cfg : Config P K V D) (st : CamState P K V D) (pt : P)
    (h : lookupHit cfg st pt true = none) :
    firstMatch st pt = none ∨
      ∃ j, firstMatch st pt = some j ∧
        slotComplete cfg.collectors (st.get j) = false := by
  rcases hfm : firstMatch st pt with _ | j
  · exact .inl rfl
  · right
    refine ⟨j, rfl, ?_⟩
    unfold lookupHit at h
    rw [if_pos rfl] at h
    simp only [hfm] at h
    split_ifs at h with hcomp
    all_goals simpa using hcomp

theorem setSlot_get_self (st : CamState P K V D) (i : Fin 3) :
    st.setSlot i (st.get i) = st := by
  fin_cases i <;> rfl

theorem slot_params_eta (s : Slot P K V D) (pt : P) (h : s.params = some pt) :
    ({ s with params := some pt } : Slot P K V D) = s := by
  cases s; simp_all

theorem slotComplete_writeResults_all (s : Slot P K V D) (ks : List K) (f : K → V) :
    slotComplete ks (writeResults s ks f) = true := by
  simp only [slotComplete, writeResults, List.all_eq_true]
  intro k hk
  simp [hk]

/-- Acquiring a fresh slot for parameters nobody stores: writing any slot
value carrying the new parameters and the old recency counter into the
first-minimal-recency slot preserves the invariant. -/
theorem cacheInv_acquire (ks : List K) (st : CamState P K V D) (pt : P)
    (s : Slot P K V D) (hd : noDupParams st) (ha : lruAux ks st)
    (hn0 : st.s0.params ≠ some pt) (hn1 : st.s1.params ≠ some pt)
    (hn2 : st.s2.params ≠ some pt)
    (hp : s.params = some pt) (hl : s.last = (st.get (argminLast st)).last) :
    CacheInv ks (st.setSlot (argminLast st) s) := by
  obtain ⟨hd01, hd02, hd12⟩ := hd
  obtain ⟨ha0, ha1, ha2⟩ := ha
  have hargs := lowMinAt_argminLast st
  rcases fin3_cases (argminLast st) with hi | hi | hi <;>
    rw [hi] at hl hargs ⊢ <;>
    simp only [lowMinAt] at hargs <;>
    simp only [CamState.get] at hl <;>
    simp only [CamState.setSlot, CacheInv, noDupParams, lruAux, lowMinAt]
  · refine ⟨⟨?_, ?_, ?_⟩, ?_, ?_, ?_⟩
    · exact .inr (fun hh => hn1 (by rw [hp] at hh; exact hh.symm))
    · exact .inr (fun hh => hn2 (by rw [hp] at hh; exact hh.symm))
    · exact hd12
    · intro _ _; omega
    · intro hp1 hc1
      have h1 := ha1 hp1 hc1
      simp only [lowMinAt] at h1
      omega
    · intro hp2 hc2
      have h2 := ha2 hp2 hc2
      simp only [lowMinAt] at h2
      omega
  · refine ⟨⟨?_, ?_, ?_⟩, ?_, ?_, ?_⟩
    · exact .inr (fun hh => hn0 (by rw [hp] at hh; exact hh))
    · exact hd02
    · exact .inr (fun hh => hn2 (by rw [hp] at hh; exact hh.symm))
    · intro hp0 hc0
      have h0 := ha0 hp0 hc0
      simp only [lowMinAt] at h0
      omega
    · intro _ _; omega
    · intro hp2 hc2
      have h2 := ha2 hp2 hc2
      simp only [lowMinAt] at h2
      omega
  · refine ⟨⟨?_, ?_, ?_⟩, ?_, ?_, ?_⟩
    · exact hd01
    · exact .inr (fun hh => hn0 (by rw [hp] at hh; exact hh))
    · exact .inr (fun hh => hn1 (by rw [hp] at hh; exact hh))
    · intro hp0 hc0
      have h0 := ha0 hp0 hc0
      simp only [lowMinAt] at h0
      omega
    · intro hp1 hc1
      have h1 := ha1 hp1 hc1
      simp only [lowMinAt] at h1
      omega
    · intro _ _; omega

theorem lruAux_at (ks : List K) (st : CamState P K V D) (j : Fin 3)
    (ha : lruAux ks st) (hp : (st.get j).params ≠ none)
    (hc : slotComplete ks (st.get j) = false) : lowMinAt st j := by
  rcases fin3_cases j with hj | hj | hj <;> subst hj <;>
    simp only [CamState.get] at hp hc
  · exact ha.1 hp hc
  · exact ha.2.1 hp hc
  · exact ha.2.2 hp hc

theorem last_setSlot_0 (st : CamState P K V D) (i : Fin 3) (s : Slot P K V D)
    (h : s.last = (st.get i).last) : (st.setSlot i s).s0.last = st.s0.last := by
  rcases fin3_cases i with hi | hi | hi <;> subst hi <;>
    simp_all [CamState.setSlot, CamState.get]

theorem last_setSlot_1 (st : CamState P K V D) (i : Fin 3) (s : Slot P K V D)
    (h : s.last = (st.get i).last) : (st.setSlot i s).s1.last = st.s1.last := by
  rcases fin3_cases i with hi | hi | hi <;> subst hi <;>
    simp_all [CamState.setSlot, CamState.get]

theorem last_setSlot_2 (st : CamState P K V D) (i : Fin 3) (s : Slot P K V D)
    (h : s.last = (st.get i).last) : (st.setSlot i s).s2.last = st.s2.last := by
  rcases fin3_cases i with hi | hi | hi <;> subst hi <;>
    simp_all [CamState.setSlot, CamState.get]

/-- Rewriting the slot that is already the unique incomplete parameter match
(the miss path re-acquiring the same slot): any slot value preserving its
stored parameters and recency keeps the invariant. -/
theorem cacheInv_rewrite (ks : List K) (st : CamState P K V D) (j : Fin 3)
    (s : Slot P K V D) (hd : noDupParams st) (ha : lruAux ks st)
    (hp : s.params = (st.get j).params) (hl : s.last = (st.get j).last)
    (hlow : lowMinAt st j) :
    CacheInv ks (st.setSlot j s) := by
  obtain ⟨hd01, hd02, hd12⟩ := hd
  obtain ⟨ha0, ha1, ha2⟩ := ha
  rcases fin3_cases j with hj | hj | hj <;> subst hj <;>
    simp only [CamState.get] at hp hl <;>
    simp only [lowMinAt] at hlow <;>
    simp only [CamState.setSlot, CacheInv, noDupParams, lruAux, lowMinAt]
  · refine ⟨⟨?_, ?_, ?_⟩, ?_, ?_, ?_⟩
    · rw [hp]; exact hd01
    · rw [hp]; exact hd02
    · exact hd12
    · intro _ _; omega
    · intro hp1 hc1
      have h1 := ha1 hp1 hc1
      simp only [lowMinAt] at h1
      omega
    · intro hp2 hc2
      have h2 := ha2 hp2 hc2
      simp only [lowMinAt] at h2
      omega
  · refine ⟨⟨?_, ?_, ?_⟩, ?_, ?_, ?_⟩
    · rw [hp]; exact hd01
    · exact hd02
    · rw [hp]; exact hd12
    · intro hp0 hc0
      have h0 := ha0 hp0 hc0
      simp only [lowMinAt] at h0
      omega
    · intro _ _; omega
    · intro hp2 hc2
      have h2 := ha2 hp2 hc2
      simp only [lowMinAt] at h2
      omega
  · refine ⟨⟨?_, ?_, ?_⟩, ?_, ?_, ?_⟩
    · exact hd01
    · rw [hp]; exact hd02
    · rw [hp]; exact hd12
    · intro hp0 hc0
      have h0 := ha0 hp0 hc0
      simp only [lowMinAt] at h0
      omega
    · intro hp1 hc1
      have h1 := ha1 hp1 hc1
      simp only [lowMinAt] at h1
      omega
    · intro _ _; omega

/-- Promoting a complete slot (the end of a hit or of a successful fresh
computation) preserves the invariant, provided the shift amount dominates
every recency counter, as the captured `max(lasts)` does. -/
theorem cacheInv_touch (ks : List K) (st : CamState P K V D) (m : Int) (i : Fin 3)
    (hd : noDupParams st) (ha : lruAux ks st)
    (hcomp : slotComplete ks (st.get i) = true)
    (hm0 : st.s0.last ≤ m) (hm1 : st.s1.last ≤ m) (hm2 : st.s2.last ≤ m) :
    CacheInv ks (touch st m i) := by
  obtain ⟨hd01, hd02, hd12⟩ := hd
  obtain ⟨ha0, ha1, ha2⟩ := ha
  rcases fin3_cases i with hi | hi | hi <;> subst hi <;>
    simp only [CamState.get] at hcomp <;>
    simp only [touch, CamState.setSlot, CamState.get, CacheInv, noDupParams, lruAux,
      lowMinAt]
  · refine ⟨⟨hd01, hd02, hd12⟩, ?_, ?_, ?_⟩
    · intro _ hc
      rw [show slotComplete ks
          { params := st.s0.params, results := st.s0.results, derived := st.s0.derived,
            last := 1 } = slotComplete ks st.s0 from rfl, hcomp] at hc
      simp at hc
    · intro hp1 hc1
      have h1 := ha1 hp1 hc1
      simp only [lowMinAt] at h1
      omega
    · intro hp2 hc2
      have h2 := ha2 hp2 hc2
      simp only [lowMinAt] at h2
      omega
  · refine ⟨⟨hd01, hd02, hd12⟩, ?_, ?_, ?_⟩
    · intro hp0 hc0
      have h0 := ha0 hp0 hc0
      simp only [lowMinAt] at h0
      omega
    · intro _ hc
      rw [show slotComplete ks
          { params := st.s1.params, results := st.s1.results, derived := st.s1.derived,
            last := 1 } = slotComplete ks st.s1 from rfl, hcomp] at hc
      simp at hc
    · intro hp2 hc2
      have h2 := ha2 hp2 hc2
      simp only [lowMinAt] at h2
      omega
  · refine ⟨⟨hd01, hd02, hd12⟩, ?_, ?_, ?_⟩
    · intro hp0 hc0
      have h0 := ha0 hp0 hc0
      simp only [lowMinAt] at h0
      omega
    · intro hp1 hc1
      have h1 := ha1 hp1 hc1
      simp only [lowMinAt] at h1
      omega
    · intro _ hc
      rw [show slotComplete ks
          { params := st.s2.params, results := st.s2.results, derived := st.s2.derived,
            last := 1 } = slotComplete ks st.s2 from rfl, hcomp] at hc
      simp at hc

theorem cacheInv_acquire_touch (ks : List K) (st : CamState P K V D) (pt : P)
    (S : Slot P K V D) (hd : noDupParams st) (ha : lruAux ks st)
    (hn0 : st.s0.params ≠ some pt) (hn1 : st.s1.params ≠ some pt)
    (hn2 : st.s2.params ≠ some pt) (hp : S.params = some pt)
    (hl : S.last = (st.get (argminLast st)).last)
    (hcomp : slotComplete ks S = true) :
    CacheInv ks (touch (st.setSlot (argminLast st) S) (maxLasts st) (argminLast st)) := by
  have hinv := cacheInv_acquire ks st pt S hd ha hn0 hn1 hn2 hp hl
  refine cacheInv_touch ks _ (maxLasts st) (argminLast st) hinv.1 hinv.2 ?_ ?_ ?_ ?_
  · rw [get_setSlot_same]; exact hcomp
  · rw [last_setSlot_0 st _ S hl]; exact le_maxLasts_0 st
  · rw [last_setSlot_1 st _ S hl]; exact le_maxLasts_1 st
  · rw [last_setSlot_2 st _ S hl]; exact le_maxLasts_2 st

theorem cacheInv_rewrite_touch (ks : List K) (st : CamState P K V D) (j : Fin 3)
    (S : Slot P K V D) (hd : noDupParams st) (ha : lruAux ks st)
    (hp : S.params = (st.get j).params) (hl : S.last = (st.get j).last)
    (hlow : lowMinAt st j) (hcomp : slotComplete ks S = true) :
    CacheInv ks (touch (st.setSlot j S) (maxLasts st) j) := by
  have hinv := cacheInv_rewrite ks st j S hd ha hp hl hlow
  refine cacheInv_touch ks _ (maxLasts st) j hinv.1 hinv.2 ?_ ?_ ?_ ?_
  · rw [get_setSlot_same]; exact hcomp
  · rw [last_setSlot_0 st _ S hl]; exact le_maxLasts_0 st
  · rw [last_setSlot_1 st _ S hl]; exact le_maxLasts_1 st
  · rw [last_setSlot_2 st _ S hl]; exact le_maxLasts_2 st

/-- One cached `compute` call preserves the invariant, whatever the solver
outcome (hit, fresh success, out-of-range or collector error, strict or
lenient). -/
theorem cacheInv_compute (cfg : Config P K V D) (st : CamState P K V D) (pt : P)
    (w : Bool) (h : CacheInv cfg.collectors st) :
    CacheInv cfg.collectors (compute cfg st pt true w).state := by
  obtain ⟨hd, ha⟩ := h
  cases hl : lookupHit cfg st pt true with
  | some i =>
      obtain ⟨hfm, hcomp⟩ := lookupHit_some_spec cfg st pt true i hl
      rw [compute_hit cfg st pt true w i hl]
      exact cacheInv_touch cfg.collectors st (maxLasts st) i hd ha hcomp
        (le_maxLasts_0 st) (le_maxLasts_1 st) (le_maxLasts_2 st)
  | none =>
      rcases lookupHit_none_cases cfg st pt hl with hnone | ⟨j, hj, hjc⟩
      · obtain ⟨hn0, hn1, hn2⟩ := firstMatch_none_spec st pt hnone
        simp only [compute, hl]
        cases hsv : cfg.solver pt with
        | rangeError =>
            simp only []
            split <;>
              exact cacheInv_acquire cfg.collectors st pt _ hd ha hn0 hn1 hn2 rfl rfl
        | computeError jj f =>
            simp only []
            rw [get_setSlot_same, setSlot_setSlot]
            split <;>
              exact cacheInv_acquire cfg.collectors st pt _ hd ha hn0 hn1 hn2 rfl rfl
        | ok f d =>
            simp only []
            rw [get_setSlot_same, setSlot_setSlot]
            exact cacheInv_acquire_touch cfg.collectors st pt _ hd ha hn0 hn1 hn2
              (by cases w <;> rfl) (by cases w <;> rfl)
              (by cases w <;> exact slotComplete_writeResults_all _ _ _)
      · have hjp := firstMatch_some_spec st pt j hj
        have hjne : (st.get j).params ≠ none := by rw [hjp]; simp
        have hlow : lowMinAt st j := lruAux_at cfg.collectors st j ha hjne hjc
        have hargm : argminLast st = j := argminLast_of_lowMinAt st j hlow
        simp only [compute, hl]
        cases hsv : cfg.solver pt with
        | rangeError =>
            simp only []
            rw [hargm, slot_params_eta (st.get j) pt hjp, setSlot_get_self]
            split <;> exact ⟨hd, ha⟩
        | computeError jj f =>
            simp only []
            rw [hargm, get_setSlot_same, setSlot_setSlot]
            split <;>
              exact cacheInv_rewrite cfg.collectors st j _ hd ha
                (by rw [hjp]; rfl) rfl hlow
        | ok f d =>
            simp only []
            rw [hargm, get_setSlot_same, setSlot_setSlot]
            exact cacheInv_rewrite_touch cfg.collectors st j _ hd ha
              (by cases w <;> rw [hjp] <;> rfl) (by cases w <;> rfl) hlow
              (by cases w <;> exact slotComplete_writeResults_all _ _ _)

/-- The invariant holds after any sequence of cached `compute` calls. -/
theorem cacheInv_runSeq (cfg : Config P K V D) (calls : List (Call P))
    (st : CamState P K V D) (h : CacheInv cfg.collectors st)
    (hc : ∀ c ∈ calls, c.cached = true) :
    CacheInv cfg.collectors (runSeq cfg calls st) := by
  induction calls generalizing st with
  | nil => exact h
  | cons c cs ih =>
      have hcc : c.cached = true := hc c (List.mem_cons_self c cs)
      have hstep : CacheInv cfg.collectors (compute cfg st c.pt c.cached c.wantDerived).state := by
        rw [hcc]
        exact cacheInv_compute cfg st c.pt c.wantDerived h
      exact ih _ hstep (fun x hx => hc x (List.mem_cons_of_mem c hx))

theorem cacheInv_initState : CacheInv (P := P) (V := V) (D := D) ks initState := by
  refine ⟨⟨.inl rfl, .inl rfl, .inl rfl⟩, ?_, ?_, ?_⟩ <;>
    · intro hp _
      exact absurd rfl hp

/-- C5 (amended). With caching enabled on every call, at every reachable
cache state — after any sequence of `compute` calls from the fresh cache,
including evaluations that end in a zero result (out-of-range or collector
error) — no two slots hold equal stored parameter mappings. -/
theorem no_duplicate_params_cached (cfg : Config P K V D) (calls : List (Call P))
    (hc : ∀ c ∈ calls, c.cached = true) :
    noDupParams (runSeq cfg calls initState) :=
  (cacheInv_runSeq cfg calls initState cacheInv_initState hc).1

/-- Witness for `no_duplicate_params_cached`: a concrete cached run with a
repeat, an eviction and a zero result. -/
def cfgMix : Config ℕ ℕ ℕ ℕ :=
  ⟨[0], fun p => if p = 9 then .rangeError else .ok (fun _ => p) p, false⟩

theorem no_duplicate_params_cached_witness :
    (∀ c ∈ [Call.mk (P := ℕ) 1 true true, Call.mk 2 true true, Call.mk 9 true true,
        Call.mk 3 true true, Call.mk 4 true true, Call.mk 1 true true],
      c.cached = true) ∧
      noDupParams (runSeq cfgMix
        [Call.mk 1 true true, Call.mk 2 true true, Call.mk 9 true true,
          Call.mk 3 true true, Call.mk 4 true true, Call.mk 1 true true] initState) :=
  ⟨by decide, no_duplicate_params_cached cfgMix _ (by decide)⟩

/-- Counterexample to C5 as stated: two consecutive evaluations of the same
parameter set with caching disabled leave slots 0 and 1 both holding that
parameter mapping — duplicate live entries. -/
theorem duplicate_params_uncached_cex :
    (runSeq cfgW [Call.mk 5 false true, Call.mk 5 false true] initState).s0.params
        = some 5 ∧
      (runSeq cfgW [Call.mk 5 false true, Call.mk 5 false true] initState).s1.params
        = some 5 ∧
      ¬ noDupParams (runSeq cfgW [Call.mk 5 false true, Call.mk 5 false true]
        initState) := by
  refine ⟨by decide, by decide, fun h => absurd h ?_⟩
  unfold noDupParams
  decide

end CacheInvariant

section ZAccessors

/-- Failure of a redshift accessor: `indexOutOfBounds` is numpy's IndexError
from fancy indexing past the end of the stored array (its message names the
offending position, not the queried redshift). -/
inductive ZErr where
  | indexOutOfBounds : ZErr
deriving DecidableEq

/-- Left-sided `np.searchsorted` on a sorted 1-d array: the number of leading
entries strictly below the query, i.e. the insertion position. -/
def searchsorted (xs : List ℚ) (z : ℚ) : ℕ :=
  (xs.takeWhile (fun x => x < z)).length

/-- numpy fancy indexing `np.array(arr)[idxs]`: every position must be in
range, otherwise an IndexError. -/
def npIndex (arr : List ℚ) (idxs : List ℕ) : Except ZErr (List ℚ) :=
  if idxs.all (fun i => i < arr.length) then .ok (idxs.map (fun i => arr.getD i 0))
  else .error .indexOutOfBounds

/-- `np.where(computed_redshifts == zi)[0]`: the positions holding exactly
`zi`. -/
def whereEq (xs : List ℚ) (z : ℚ) : List ℕ :=
  (List.range xs.length).filter (fun i => xs.getD i 0 = z)

/-- The quantities served by `camb._get_z_dependent`. -/
inductive ZQuantity where
  | H : ZQuantity
  | angular_diameter_distance : ZQuantity
  | comoving_radial_distance : ZQuantity
  | fsigma8 : ZQuantity
deriving DecidableEq

/-- Shallow embedding of `camb._get_z_dependent`: for `fsigma8` the indices
come from exact `np.where` matches against `extra_args["redshifts"]`
(missing query values contribute no index at all); for every other quantity
`np.searchsorted` against the collector's redshift list gives insertion
positions, and fancy indexing then reads the (deep-copied) stored array. -/
def get_z_dependent (q : ZQuantity) (collectorZ : List ℚ)
    (extraRedshifts : List ℚ) (stored : List ℚ) (zs : List ℚ) :
    Except ZErr (List ℚ) :=
  match q with
  | .fsigma8 => npIndex stored (zs.map (whereEq extraRedshifts)).flatten
  | _ => npIndex stored (zs.map (searchsorted collectorZ))

/-- `camb.get_angular_diameter_distance`. -/
def get_angular_diameter_distance (collectorZ stored zs : List ℚ) :
    Except ZErr (List ℚ) :=
  get_z_dependent .angular_diameter_distance collectorZ [] stored zs

/-- `camb.get_comoving_radial_distance`. -/
def get_comoving_radial_distance (collectorZ stored zs : List ℚ) :
    Except ZErr (List ℚ) :=
  get_z_dependent .comoving_radial_distance collectorZ [] stored zs

/-- `camb.get_fsigma8`. -/
def get_fsigma8 (extraRedshifts stored zs : List ℚ) : Except ZErr (List ℚ) :=
  get_z_dependent .fsigma8 [] extraRedshifts stored zs

/-- The units of `camb.get_H` (the table `self.H_units_conv_factor`; an
unknown key would raise a LoggedError naming the unit, a path outside this
model). `_c_km_s` is the speed of light in km/s. -/
inductive HUnit where
  | invMpc : HUnit
  | kmsMpc : HUnit
deriving DecidableEq

def c_km_s : ℚ := 299792458 / 1000

def H_units_conv_factor : HUnit → ℚ
  | .invMpc => 1
  | .kmsMpc => c_km_s

/-- `camb.get_H`: the redshift lookup scaled by the units conversion
factor. -/
def get_H (collectorZ stored zs : List ℚ) (u : HUnit) : Except ZErr (List ℚ) :=
  (get_z_dependent .H collectorZ [] stored zs).map
    (fun vs => vs.map (fun v => v * H_units_conv_factor u))

theorem searchsorted_lt_length {xs : List ℚ} {z y : ℚ} (hy : y ∈ xs)
    (hzy : z ≤ y) : searchsorted xs z < xs.length := by
  induction xs with
  | nil => cases hy
  | cons x t ih =>
      by_cases hx : x < z
      · rcases List.mem_cons.mp hy with rfl | hyt
        · exact absurd (lt_of_lt_of_le hx hzy) (lt_irrefl _)
        · have hih := ih hyt
          simp only [searchsorted] at hih ⊢
          simp only [List.takeWhile_cons, List.length_cons]
          simp only [hx]
          simp
          omega
      · simp only [searchsorted, List.takeWhile_cons, List.length_cons]
        simp [hx]

theorem searchsorted_eq_length {xs : List ℚ} {z : ℚ} (h : ∀ y ∈ xs, y < z) :
    searchsorted xs z = xs.length := by
  induction xs with
  | nil => rfl
  | cons x t ih =>
      have hx : x < z := h x (List.mem_cons_self x t)
      have hih := ih (fun y hy => h y (List.mem_cons_of_mem x hy))
      simp only [searchsorted] at hih ⊢
      simp [List.takeWhile_cons, hx, hih]

theorem searchsorted_getElem {xs : List ℚ} (hs : xs.Sorted (· < ·)) (i : ℕ)
    (hi : i < xs.length) : searchsorted xs xs[i] = i := by
  induction xs generalizing i with
  | nil => simp at hi
  | cons x t ih =>
      obtain ⟨hx, hst⟩ := List.sorted_cons.mp hs
      cases i with
      | zero =>
          simp [searchsorted, List.takeWhile_cons]
      | succ n =>
          have hn : n < t.length := by simpa using hi
          have hget : (x :: t)[n + 1] = t[n] := rfl
          have hmem : t[n] ∈ t := List.getElem_mem hn
          have hxe : x < t[n] := hx _ hmem
          have hih := ih hst n hn
          simp only [searchsorted] at hih ⊢
          rw [hget]
          simp [List.takeWhile_cons, hxe, hih]

theorem whereEq_nil_of_not_mem {xs : List ℚ} {z : ℚ} (h : z ∉ xs) :
    whereEq xs z = [] := by
  unfold whereEq
  rw [List.filter_eq_nil_iff]
  intro i hi
  simp only [List.mem_range] at hi
  simp only [decide_eq_true_eq]
  intro he
  rw [List.getD_eq_getElem xs 0 hi] at he
  exact h (he ▸ List.getElem_mem hi)

end ZAccessors

section C2Theorems

/-- Counterexample to C2 as stated: querying redshift 3/2, which is not in
the configured list [1, 2, 3], does not fail with an IndexError naming the
value — `get_angular_diameter_distance` silently returns the value stored
for the next-higher redshift 2. -/
theorem z_lookup_missing_cex :
    get_angular_diameter_distance [1, 2, 3] [10, 20, 30] [3 / 2] = .ok [20] := by
  norm_num [get_angular_diameter_distance, get_z_dependent, npIndex, searchsorted,
    List.takeWhile_cons, List.getD]

/-- C2 (amended). Over a strictly ascending configured redshift list aligned
with the stored array: a present redshift returns exactly the stored value
at its position; an absent redshift bounded by some configured value
silently returns the stored value at the `searchsorted` insertion position
(no error is raised and no value is named); a redshift above every
configured value fails with numpy's out-of-bounds IndexError (which names a
position, not the redshift); and for `fsigma8` a redshift absent from
`extra_args["redshifts"]` is silently dropped from the result. -/
theorem z_lookup_amended (zlist stored : List ℚ)
    (hs : zlist.Sorted (· < ·)) (hlen : stored.length = zlist.length) :
    (∀ (i : ℕ) (hi : i < zlist.length),
      get_angular_diameter_distance zlist stored [zlist[i]] =
        .ok [stored.getD i 0]) ∧
    (∀ z : ℚ, (∃ y ∈ zlist, z ≤ y) →
      get_angular_diameter_distance zlist stored [z] =
        .ok [stored.getD (searchsorted zlist z) 0]) ∧
    (∀ z : ℚ, (∀ y ∈ zlist, y < z) → zlist ≠ [] →
      get_angular_diameter_distance zlist stored [z] = .error .indexOutOfBounds) ∧
    (∀ z : ℚ, z ∉ zlist →
      get_fsigma8 zlist stored [z] = .ok []) := by
  refine ⟨?_, ?_, ?_, ?_⟩
  · intro i hi
    have h1 := searchsorted_getElem hs i hi
    have h2 : searchsorted zlist zlist[i] < stored.length := by omega
    simp [get_angular_diameter_distance, get_z_dependent, npIndex, h1, h2]
    omega
  · intro z ⟨y, hy, hzy⟩
    have h1 := searchsorted_lt_length hy hzy
    have h2 : searchsorted zlist z < stored.length := by omega
    simp [get_angular_diameter_distance, get_z_dependent, npIndex, h2]
  · intro z hz hne
    have h1 := searchsorted_eq_length hz
    have h2 : ¬ (searchsorted zlist z < stored.length) := by
      rw [h1, hlen]
      exact lt_irrefl _
    simp [get_angular_diameter_distance, get_z_dependent, npIndex, h2]
  · intro z hz
    simp [get_fsigma8, get_z_dependent, npIndex, whereEq_nil_of_not_mem hz]

/-- Witness for `z_lookup_amended` at the list [1, 2, 3] with stored values
[10, 20, 30]: redshift 2 returns exactly 20, absent redshift 5/2 silently
returns 30, redshift 7 overflows, and fsigma8 drops the absent value. -/
theorem z_lookup_amended_witness :
    ([(1 : ℚ), 2, 3].Sorted (· < ·) ∧ [(10 : ℚ), 20, 30].length = [(1 : ℚ), 2, 3].length) ∧
      get_angular_diameter_distance [1, 2, 3] [10, 20, 30] [2] = .ok [20] ∧
      get_angular_diameter_distance [1, 2, 3] [10, 20, 30] [5 / 2] = .ok [30] ∧
      get_angular_diameter_distance [1, 2, 3] [10, 20, 30] [7] =
        .error .indexOutOfBounds ∧
      get_fsigma8 [1, 2, 3] [10, 20, 30] [5 / 2] = .ok [] := by
  have hs : [(1 : ℚ), 2, 3].Sorted (· < ·) := by
    norm_num [List.sorted_cons]
  have hlen : [(10 : ℚ), 20, 30].length = [(1 : ℚ), 2, 3].length := rfl
  have h := z_lookup_amended [1, 2, 3] [10, 20, 30] hs hlen
  refine ⟨⟨hs, hlen⟩, ?_, ?_, ?_, ?_⟩
  · exact (h.1 1 (by norm_num)).trans (by norm_num [List.getD])
  · exact (h.2.1 (5 / 2) ⟨3, by norm_num, by norm_num⟩).trans
      (by norm_num [searchsorted, List.takeWhile_cons, List.getD])
  · exact h.2.2.1 7 (by norm_num) (by simp)
  · exact h.2.2.2 (5 / 2) (by norm_num)

end C2Theorems

section ClAccessor

/-- The float64 value of `2 * np.pi` used in `get_Cl`, as an exact rational
(`np.pi` is the double `884279719003555 / 2 ** 48`; doubling is exact).
Floating-point rounding of the arithmetic is not modelled — the claims under
test concern which factors are applied where. -/
def np_two_pi : ℚ := 884279719003555 / 2 ^ 47

/-- The multipole weighting `(ell + 1) * ell / (2 * np.pi)` at row `i`. -/
def ellWeight (i : ℕ) : ℚ := ((i : ℚ) + 1) * i / np_two_pi

/-- The raw spectra held in the current slot under the `"Cl"` key: `n` rows
(multipoles `0 .. n-1`), the four columns tt, ee, bb, te of `"total"`, and
the lensing-potential column `"lens_potential"[:, 0]` when collected. -/
structure ClRaw where
  n : ℕ
  total : ℕ → Fin 4 → ℚ
  lens : Option (ℕ → ℚ)

/-- Output of `camb.get_Cl` (the `"ell"` entry is `np.arange n`). -/
structure ClOut where
  n : ℕ
  tt : ℕ → ℚ
  ee : ℕ → ℚ
  bb : ℕ → ℚ
  te : ℕ → ℚ
  pp : Option (ℕ → ℚ)

/-- Shallow embedding of `camb.get_Cl` acting on deep copies of the stored
arrays: rows from index 2 of every non-lensing spectrum are scaled in place
by `units_factor ** 2 * ell_factor` (the multipole weighting only when the
option is on, else the scalar 1); the lensing-potential rows from index 2
are scaled by `ell_factor ** 2 * (2 * np.pi)` under the guard
`'pp' in cls and ell_factor is not 1`, i.e. only when the option is on;
rows 0 and 1 are never touched.  `unitsFactor` abstracts the units table
(`{"1": 1, "muK2": T_CMB*1e6, "K2": T_CMB}`; an unknown key raises a
LoggedError naming the unit and the supported set, a path outside this
model). -/
def get_Cl (raw : ClRaw) (ellFactorOn : Bool) (unitsFactor : ℚ) : ClOut :=
  let scale : ℚ → ℕ → ℚ := fun v i =>
    if 2 ≤ i ∧ i < raw.n then
      v * (unitsFactor ^ 2 * (if ellFactorOn then ellWeight i else 1))
    else v
  { n := raw.n
    tt := fun i => scale (raw.total i 0) i
    ee := fun i => scale (raw.total i 1) i
    bb := fun i => scale (raw.total i 2) i
    te := fun i => scale (raw.total i 3) i
    pp := raw.lens.map (fun p i =>
      if (2 ≤ i ∧ i < raw.n) ∧ ellFactorOn then
        p i * (ellWeight i ^ 2 * np_two_pi)
      else p i) }

/-- Column access by the `{"tt": 0, "ee": 1, "bb": 2, "te": 3}` mapping. -/
def ClOut.col (o : ClOut) : Fin 4 → ℕ → ℚ
  | 0 => o.tt
  | 1 => o.ee
  | 2 => o.bb
  | 3 => o.te

/-- The lensing-potential output at a row (0 when it was not collected). -/
def ppAt (o : ClOut) (i : ℕ) : ℚ :=
  match o.pp with
  | some f => f i
  | none => 0

/-- Counterexample to C9 as stated: with the ell-weighting option off, the
lensing-potential row 2 is returned exactly as stored (value 1), although
multiplying by the claimed unconditional 2π normalization would change it —
the 2π factor sits inside the `ell_factor is not 1` guard and is NOT applied
when the option is off. -/
theorem lensing_two_pi_cex :
    ppAt (get_Cl ⟨3, fun _ _ => 1, some fun _ => 1⟩ false 1) 2 = 1 ∧
      np_two_pi * 1 ≠ 1 := by
  constructor
  · rfl
  · norm_num [np_two_pi]

/-- C9 (amended). In `get_Cl`, for every spectrum with the lensing potential
collected: rows `2 ≤ i < n` of each non-lensing column are the stored value
times `units_factor ** 2` times the multipole weighting when the option is
on (times 1 when off); rows `2 ≤ i < n` of the lensing potential are scaled
by `ellWeight i ** 2 * 2π` only when the ell-weighting option is on and are
returned unchanged when it is off (the 2π normalization is inside the same
guard, not unconditional); and rows 0 and 1 of every spectrum are returned
untouched. -/
theorem get_Cl_factors (raw : ClRaw) (u : ℚ) (b : Bool) (p : ℕ → ℚ)
    (hp : raw.lens = some p) :
    (∀ (c : Fin 4) (i : ℕ), 2 ≤ i → i < raw.n →
      (get_Cl raw b u).col c i =
        raw.total i c * (u ^ 2 * (if b then ellWeight i else 1))) ∧
    (∀ i : ℕ, 2 ≤ i → i < raw.n →
      ppAt (get_Cl raw b u) i =
        if b then p i * (ellWeight i ^ 2 * np_two_pi) else p i) ∧
    (∀ (c : Fin 4) (j : ℕ), j < 2 → (get_Cl raw b u).col c j = raw.total j c) ∧
    (∀ j : ℕ, j < 2 → ppAt (get_Cl raw b u) j = p j) := by
  refine ⟨?_, ?_, ?_, ?_⟩
  · intro c i h2 hn
    fin_cases c <;> simp [get_Cl, ClOut.col, h2, hn]
  · intro i h2 hn
    cases b <;> simp [get_Cl, ppAt, hp, h2, hn]
  · intro c j hj
    have hj2 : ¬ (2 ≤ j ∧ j < raw.n) := by omega
    fin_cases c <;> simp [get_Cl, ClOut.col, hj2]
  · intro j hj
    have hj2 : ¬ ((2 ≤ j ∧ j < raw.n) ∧ b = true) := by
      intro hcon
      omega
    simp [get_Cl, ppAt, hp, hj2]

/-- Witness for `get_Cl_factors` with a concrete three-row spectrum. -/
theorem get_Cl_factors_witness :
    (ClRaw.mk 3 (fun _ _ => 1) (some fun _ => 1)).lens = some (fun _ => 1) ∧
      ((∀ (c : Fin 4) (i : ℕ), 2 ≤ i → i < 3 →
        (get_Cl ⟨3, fun _ _ => 1, some fun _ => 1⟩ true 1).col c i =
          (fun (_ : ℕ) (_ : Fin 4) => (1 : ℚ)) i c *
            (1 ^ 2 * (if true then ellWeight i else 1))) ∧
      (∀ i : ℕ, 2 ≤ i → i < 3 →
        ppAt (get_Cl ⟨3, fun _ _ => 1, some fun _ => 1⟩ true 1) i =
          if true then (fun _ : ℕ => (1 : ℚ)) i * (ellWeight i ^ 2 * np_two_pi)
          else (fun _ : ℕ => (1 : ℚ)) i) ∧
      (∀ (c : Fin 4) (j : ℕ), j < 2 →
        (get_Cl ⟨3, fun _ _ => 1, some fun _ => 1⟩ true 1).col c j =
          (fun (_ : ℕ) (_ : Fin 4) => (1 : ℚ)) j c) ∧
      (∀ j : ℕ, j < 2 →
        ppAt (get_Cl ⟨3, fun _ _ => 1, some fun _ => 1⟩ true 1) j =
          (fun _ : ℕ => (1 : ℚ)) j)) :=
  ⟨rfl, get_Cl_factors ⟨3, fun _ _ => 1, some fun _ => 1⟩ 1 true (fun _ => 1) rfl⟩

end ClAccessor

section Requirements

/-- Failure of a numpy call inside `needs`. `concatenateMisuse` models the
exception from `np.concatenate(a, b)` called with a bare 1-d array as the
first argument and a second 1-d array in the positional `axis` slot; numpy
rejects that call (the axis must be an integer scalar, and iterating the
first array yields zero-dimensional entries, which cannot be concatenated).
numpy is an external collaborator of this module; this constructor models
its documented behaviour on the misused call. -/
inductive NpErr where
  | concatenateMisuse : NpErr
deriving DecidableEq

/-- `np.sort` of a 1-d array: ascending order. -/
def npSort (xs : List ℚ) : List ℚ := xs.insertionSort (· ≤ ·)

/-- `np.unique`: ascending order with duplicates removed. -/
def npUnique (xs : List ℚ) : List ℚ := xs.dedup.insertionSort (· ≤ ·)

/-- `np.concatenate((a, b))` — the correct single-tuple call. -/
def npConcatenate (a b : List ℚ) : List ℚ := a ++ b

/-- `np.concatenate(a, b)` with two bare arrays — the misused
two-positional-argument call, which raises. -/
def npConcatenateMisused (_a _b : List ℚ) : Except NpErr (List ℚ) :=
  .error .concatenateMisuse

/-- Shallow embedding of `camb._combine_z`: with no existing collector the
new redshifts are sorted ascending (`np.sort(np.atleast_1d(v["z"]))`,
duplicates kept); with an existing collector the code calls
`np.concatenate(c.kwargs["z"], np.atleast_1d(v["z"]))` — the arrays are
passed as two positional arguments instead of one tuple, so the call raises
instead of producing the merged list. -/
def combine_z (collectorZ : Option (List ℚ)) (vz : List ℚ) :
    Except NpErr (List ℚ) :=
  match collectorZ with
  | some cz => do
      let cat ← npConcatenateMisused cz vz
      pure (npUnique cat)
  | none => pure (npSort vz)

/-- Shallow embedding of `camb.add_to_redshifts`:
`np.sort(np.unique(np.concatenate((np.atleast_1d(z), old))))[::-1]` — the
deduplicated union of the new and stored redshifts in descending order
(this call has the correct tuple form). -/
def add_to_redshifts (old z : List ℚ) : List ℚ :=
  (npUnique (npConcatenate z old)).reverse

/-- The requirement entries of `self._needs` relevant to the redshift
registry and the extras, as dispatched by `camb.needs`. -/
inductive Req where
  | clReq (lmax : ℕ) : Req
  | hReq (z : List ℚ) : Req
  | addReq (z : List ℚ) : Req
  | crdReq (z : List ℚ) : Req
  | fsigma8Req (z : List ℚ) : Req
  | pkReq (kmax : ℚ) (z : List ℚ) : Req
deriving DecidableEq

/-- The accumulated state mutated by `camb.needs`: the per-quantity
collector redshift lists (`self.collectors[k].kwargs["z"]`), whether the
fsigma8 collector is registered, the `lmax` / `kmax` extra arguments (with
their `extra_args.get(..., 0)` defaults), the solver redshift list
`extra_args["redshifts"]` (descending), and the feature flags. -/
structure ReqState where
  collH : Option (List ℚ)
  collAdd : Option (List ℚ)
  collCrd : Option (List ℚ)
  collFsigma8 : Bool
  lmax : ℕ
  kmax : ℚ
  redshifts : List ℚ
  needs_perts : Bool
  want_CMB : Bool
  want_cls : Bool
  non_linear_lens : Bool
  non_linear_pk : Bool
deriving DecidableEq

/-- The state right after `camb.initialize`. -/
def ReqState.init : ReqState :=
  ⟨none, none, none, false, 0, 0, [], false, false, false, false, false⟩

/-- One iteration of the `for k, v in self._needs.items()` loop in
`camb.needs` for the modelled requirement kinds: `Cl` folds the maximal
requested multipole into `lmax` and flips the CMB flags; the background
quantities build their collector redshift list through `_combine_z`;
`fsigma8` and the matter-power quantities fold their redshifts into
`extra_args["redshifts"]` through `add_to_redshifts` (matter power also
folds `kmax` and the nonlinear flag, with the default `nonlinear=True`). -/
def needs1 (st : ReqState) : Req → Except NpErr ReqState
  | .clReq l =>
      pure { st with lmax := max l st.lmax, needs_perts := true,
                     want_CMB := true, want_cls := true, non_linear_lens := true }
  | .hReq z => do
      let zc ← combine_z st.collH z
      pure { st with collH := some zc }
  | .addReq z => do
      let zc ← combine_z st.collAdd z
      pure { st with collAdd := some zc }
  | .crdReq z => do
      let zc ← combine_z st.collCrd z
      pure { st with collCrd := some zc }
  | .fsigma8Req z =>
      pure { st with redshifts := add_to_redshifts st.redshifts z,
                     collFsigma8 := true, needs_perts := true }
  | .pkReq km z =>
      pure { st with kmax := max km st.kmax,
                     redshifts := add_to_redshifts st.redshifts z,
                     needs_perts := true, non_linear_pk := true }

/-- One `camb.needs` call: the loop body over the accumulated `_needs`
entries (every call re-processes every accumulated entry, not only the new
one). -/
def runNeeds (st : ReqState) (reqs : List Req) : Except NpErr ReqState :=
  reqs.foldlM needs1 st

end Requirements

section RequirementTheorems

instance instDecEqExcept {e a : Type} [DecidableEq e] [DecidableEq a] :
    DecidableEq (Except e a) := fun x y =>
  match x, y with
  | .ok u, .ok v =>
      if h : u = v then .isTrue (by rw [h]) else .isFalse (by simpa using h)
  | .error u, .error v =>
      if h : u = v then .isTrue (by rw [h]) else .isFalse (by simpa using h)
  | .ok _, .error _ => .isFalse (by simp)
  | .error _, .ok _ => .isFalse (by simp)

/-- C7: evaluation at the failing input. Declaring the `Cl` requirement a
second time leaves the accumulated state exactly as after the first
declaration, but declaring the same `H` requirement (redshift 1/2) a second
time is not a no-op: the `needs` loop reaches `_combine_z` with an existing
collector, the misused `np.concatenate(c.kwargs["z"], np.atleast_1d(v["z"]))`
call raises, and the second declaration fails instead of having no effect. -/
theorem needs_second_H_declaration_raises :
    (runNeeds ReqState.init [.clReq 1000] =
        .ok ⟨none, none, none, false, 1000, 0, [], true, true, true, true, false⟩ ∧
      runNeeds ⟨none, none, none, false, 1000, 0, [], true, true, true, true, false⟩
          [.clReq 1000] =
        .ok ⟨none, none, none, false, 1000, 0, [], true, true, true, true, false⟩) ∧
      (runNeeds ReqState.init [.hReq [1 / 2]] =
          .ok ⟨some [1 / 2], none, none, false, 0, 0, [], false, false, false, false,
            false⟩ ∧
        runNeeds ⟨some [1 / 2], none, none, false, 0, 0, [], false, false, false,
            false, false⟩ [.hReq [1 / 2]] =
          .error .concatenateMisuse) := by
  refine ⟨⟨?_, ?_⟩, ?_, rfl⟩
  · rfl
  · decide
  · rfl

/-- C8: the two redshift orderings and the broken merge.
`extra_args["redshifts"]` as maintained by `add_to_redshifts` is always the
deduplicated union of the declared and previously stored redshifts in
strictly descending order (its reverse is strictly ascending); a first
background-quantity declaration stores its collector redshift list sorted
ascending; but merging a second declaration into an existing collector list
raises from the misused `np.concatenate` call instead of producing the
merged ascending list — so the per-quantity list cannot be kept consistent
across declaration sequences.  The two closing clauses evaluate both paths:
two `fsigma8` declarations produce the descending union `[3, 2, 1]`, while
a second `H` declaration raises. -/
theorem redshift_orderings_bug :
    (∀ old z : List ℚ, (add_to_redshifts old z).reverse.Sorted (· < ·) ∧
      (∀ x : ℚ, x ∈ add_to_redshifts old z ↔ (x ∈ z ∨ x ∈ old))) ∧
      (∀ z : List ℚ, combine_z none z = .ok (npSort z) ∧
        (npSort z).Sorted (· ≤ ·)) ∧
      (∀ cz z : List ℚ, combine_z (some cz) z = .error .concatenateMisuse) ∧
      runNeeds ReqState.init [.fsigma8Req [1, 3], .fsigma8Req [3, 2]] =
        .ok ⟨none, none, none, true, 0, 0, [3, 2, 1], true, false, false, false,
          false⟩ ∧
      runNeeds ReqState.init [.hReq [1, 2], .hReq [3]] =
        .error .concatenateMisuse := by
  refine ⟨?_, ?_, fun cz z => rfl, ?_, rfl⟩
  · intro old z
    constructor
    · rw [add_to_redshifts, List.reverse_reverse]
      refine List.Sorted.lt_of_le ?_ ?_
      · exact List.sorted_insertionSort _ _
      · exact ((List.perm_insertionSort _ _).nodup_iff).mpr (List.nodup_dedup _)
    · intro x
      simp [add_to_redshifts, npUnique, npConcatenate, List.mem_insertionSort,
        List.mem_dedup]
  · intro z
    exact ⟨rfl, List.sorted_insertionSort _ _⟩
  · decide

end RequirementTheorems

section PkAccessors

/-- A variable pair `(var1, var2)` of a matter-power request, abstracted to
numeric codes. -/
abbrev VarPair := ℕ × ℕ

/-- A stored matter-power triple `(k, z, PK)` kept in the slot under the key
`("matter_power_spectrum", nonlinear) + var_pair`. -/
structure PkEntry where
  karr : List ℚ
  zarr : List ℚ
  pk : List (List ℚ)
deriving DecidableEq

/-- The arguments captured by a `PowerSpectrumInterpolator` (its constructor
lives in `cobaya.theories._cosmo`, outside this module, so only the captured
data is modelled), memoized in the slot under the key
`("Pk_interpolator", nonlinear, extrap_kmax) + var_pair`. -/
structure PkInterp where
  zarr : List ℚ
  karr : List ℚ
  table : List (List ℚ)
  logP : Bool
  extrap : Option ℚ
deriving DecidableEq

/-- The current slot as seen by the matter-power accessors: the collector
results under the matter-power keys, and the memoized interpolators that
`get_Pk_interpolator` writes back into the same slot dict. -/
structure AccState where
  mp : Bool → VarPair → Option PkEntry
  memo : Bool → Option ℚ → VarPair → Option PkInterp

/-- Failures of the matter-power accessors: the two `ValueError`s of
`get_matter_power`, the log-extrapolation `ValueError` of
`get_Pk_interpolator`, the Python-3 `TypeError` from comparing
`extrap_kmax=None` with a float on the negative-power branch, and the
IndexError from `k[-1]` on an empty array. -/
inductive PkErr where
  | nonlinearNotSpecified : PkErr
  | notComputed : PkErr
  | negativePk : PkErr
  | typeErrorNoneComparison : PkErr
  | emptyK : PkErr
deriving DecidableEq

/-- Shallow embedding of `camb.get_matter_power`: a read-only lookup of the
slot's `("matter_power_spectrum", nonlinear) + var_pair` entry (requesting
the nonlinear spectrum without the nonlinear flag is a ValueError, a missing
entry is a ValueError).  The state it hands back is the untouched input —
and note the source returns the stored arrays themselves, without copying. -/
def get_matter_power (nonLinearPk : Bool) (st : AccState) (pair : VarPair)
    (nonlinear : Bool) : Except PkErr (PkEntry × AccState) :=
  if nonlinear ∧ ¬ nonLinearPk then .error .nonlinearNotSpecified
  else
    match st.mp nonlinear pair with
    | some e => .ok (e, st)
    | none => .error .notComputed

/-- `np.all(pk > 0)`. -/
def allPos (pk : List (List ℚ)) : Bool :=
  pk.all fun row => row.all fun v => 0 < v

/-- The `log_p` branch of `get_Pk_interpolator`: when every PK value is
positive the table is `np.log(pk)` (`nplog` stands for the external
`np.log`); otherwise `elif extrap_kmax > k[-1]` either raises the
log-extrapolation ValueError, raises the Python-3 TypeError when
`extrap_kmax` is `None`, or keeps the unlogged table. -/
def pkTable (nplog : ℚ → ℚ) (e : PkEntry) (extrap : Option ℚ) :
    Except PkErr (List (List ℚ) × Bool) :=
  if allPos e.pk then .ok (e.pk.map (fun row => row.map nplog), true)
  else
    match e.karr.getLast? with
    | none => .error .emptyK
    | some klast =>
        match extrap with
        | none => .error .typeErrorNoneComparison
        | some ek => if klast < ek then .error .negativePk else .ok (e.pk, false)

/-- Shallow embedding of `camb.get_Pk_interpolator`: on a memo hit the
stored interpolator is returned and the state is untouched; otherwise the
interpolator is built from `get_matter_power`'s arrays and — the write —
stored into the slot under the memo key before being returned. -/
def get_Pk_interpolator (nplog : ℚ → ℚ) (nonLinearPk : Bool) (st : AccState)
    (pair : VarPair) (nonlinear : Bool) (extrap : Option ℚ) :
    Except PkErr (PkInterp × AccState) :=
  match st.memo nonlinear extrap pair with
  | some r => .ok (r, st)
  | none =>
      match get_matter_power nonLinearPk st pair nonlinear with
      | .error err => .error err
      | .ok (e, st1) =>
          match pkTable nplog e extrap with
          | .error err => .error err
          | .ok (table, logP) =>
              let interp : PkInterp := ⟨e.zarr, e.karr, table, logP, extrap⟩
              .ok (interp,
                { st1 with memo := fun nl ek p =>
                    if nl = nonlinear ∧ ek = extrap ∧ p = pair then some interp
                    else st1.memo nl ek p })

/-- The post-state of a `get_Pk_interpolator` call (the input state when the
call raises). -/
def pkStateAfter (nplog : ℚ → ℚ) (nonLinearPk : Bool) (st : AccState)
    (pair : VarPair) (nonlinear : Bool) (extrap : Option ℚ) : AccState :=
  match get_Pk_interpolator nplog nonLinearPk st pair nonlinear extrap with
  | .ok (_, s) => s
  | .error _ => st

/-- Whether an `Except` value is a success. -/
def isOkE {e a : Type} : Except e a → Bool
  | .ok _ => true
  | .error _ => false

end PkAccessors

section C10Theorems

theorem get_matter_power_readonly (flag : Bool) (st : AccState) (pair : VarPair)
    (nl : Bool) (e : PkEntry) (st1 : AccState)
    (h : get_matter_power flag st pair nl = .ok (e, st1)) : st1 = st := by
  unfold get_matter_power at h
  split_ifs at h
  cases hm : st.mp nl pair <;> rw [hm] at h <;> simp only [] at h
  · simp at h
  · simp only [Except.ok.injEq, Prod.mk.injEq] at h
    exact h.2.symm

/-- C10 (amended). `get_matter_power` is read-only: on success it hands back
the input slot state unchanged.  `get_Pk_interpolator` is NOT read-only: on
success the matter-power entries are unchanged, the memo entry under the
queried `("Pk_interpolator", nonlinear, extrap_kmax) + var_pair` key now
holds the returned interpolator, and every other memo entry is unchanged —
the accessor writes the built interpolator back into the shared slot.
(The redshift accessors and `get_Cl` read deep copies and keep no state;
`get_matter_power` returns the stored arrays themselves without a defensive
copy, an aliasing fact outside this value-level model.) -/
theorem accessors_readonly_amended :
    (∀ (flag : Bool) (st : AccState) (pair : VarPair) (nl : Bool) (e : PkEntry)
      (st1 : AccState),
      get_matter_power flag st pair nl = .ok (e, st1) → st1 = st) ∧
    (∀ (nplog : ℚ → ℚ) (flag : Bool) (st : AccState) (pair : VarPair) (nl : Bool)
      (ek : Option ℚ) (r : PkInterp) (st1 : AccState),
      get_Pk_interpolator nplog flag st pair nl ek = .ok (r, st1) →
        st1.mp = st.mp ∧ st1.memo nl ek pair = some r ∧
          (∀ (nl2 : Bool) (ek2 : Option ℚ) (p2 : VarPair),
            ¬ (nl2 = nl ∧ ek2 = ek ∧ p2 = pair) →
              st1.memo nl2 ek2 p2 = st.memo nl2 ek2 p2)) := by
  constructor
  · exact get_matter_power_readonly
  · intro nplog flag st pair nl ek r st1 h
    unfold get_Pk_interpolator at h
    cases hm : st.memo nl ek pair <;> rw [hm] at h <;> simp only [] at h
    · cases hg : get_matter_power flag st pair nl with
      | error err => rw [hg] at h; simp only [] at h; simp at h
      | ok val =>
          obtain ⟨e, st2⟩ := val
          have hst2 : st2 = st := get_matter_power_readonly flag st pair nl e st2 hg
          rw [hg] at h
          simp only [] at h
          cases ht : pkTable nplog e ek with
          | error err => rw [ht] at h; simp only [] at h; simp at h
          | ok tval =>
              obtain ⟨table, logP⟩ := tval
              rw [ht] at h
              simp only [] at h
              simp only [Except.ok.injEq, Prod.mk.injEq] at h
              obtain ⟨hr, hs⟩ := h
              subst hst2
              refine ⟨by rw [← hs], ?_, ?_⟩
              · rw [← hs]
                simp [← hr]
              · intro nl2 ek2 p2 hne
                rw [← hs]
                simp only []
                rw [if_neg hne]
    · simp only [Except.ok.injEq, Prod.mk.injEq] at h
      obtain ⟨hr, hs⟩ := h
      subst hs
      exact ⟨rfl, by rw [hm, hr], fun _ _ _ _ => rfl⟩

end C10Theorems

/-- A concrete slot: one nonlinear matter-power entry, no memoized
interpolators. -/
def accSt0 : AccState :=
  ⟨fun nl p => if nl = true ∧ p = (0, 0) then some ⟨[1], [0], [[2]]⟩ else none,
    fun _ _ _ => none⟩

/-- Counterexample to C10 as stated: a successful `get_Pk_interpolator` call
does not leave the slot's stored state unchanged — the memo entry under the
queried key goes from absent to present. -/
theorem pk_interpolator_writes_cex :
    accSt0.memo true none (0, 0) = none ∧
      isOkE (get_Pk_interpolator id true accSt0 (0, 0) true none) = true ∧
      (pkStateAfter id true accSt0 (0, 0) true none).memo true none (0, 0) ≠
        none := by
  refine ⟨rfl, rfl, ?_⟩
  decide

/-- Witness for `accessors_readonly_amended` at the concrete slot. -/
theorem accessors_readonly_amended_witness :
    get_matter_power true accSt0 (0, 0) true = .ok (⟨[1], [0], [[2]]⟩, accSt0) ∧
      get_Pk_interpolator id true accSt0 (0, 0) true none =
        .ok (⟨[0], [1], [[2]], true, none⟩,
          pkStateAfter id true accSt0 (0, 0) true none) ∧
      (pkStateAfter id true accSt0 (0, 0) true none).mp = accSt0.mp ∧
      (pkStateAfter id true accSt0 (0, 0) true none).memo true none (0, 0) =
        some ⟨[0], [1], [[2]], true, none⟩ ∧
      (pkStateAfter id true accSt0 (0, 0) true none).memo false none (0, 0) =
        accSt0.memo false none (0, 0) := by
  have hok : get_Pk_interpolator id true accSt0 (0, 0) true none =
      .ok (⟨[0], [1], [[2]], true, none⟩,
        pkStateAfter id true accSt0 (0, 0) true none) := by
    rfl
  have h2 := accessors_readonly_amended.2 id true accSt0 (0, 0) true none _ _ hok
  exact ⟨rfl, hok, h2.1, h2.2.1, h2.2.2 false none (0, 0) (by simp)⟩
